import Mathlib

/-!
Verification development for the AudiobookStalkerr result-matching engine
(`src/audiostracker/audible.py`, `src/audiostracker/utils.py`,
`src/audiostracker/main.py`).

The Python code is shallowly embedded: dictionaries become structures,
floats become exact rationals (`ℚ`), file-system and network effects become
explicit stores/oracles passed as arguments.  Strings are modelled at the
character-list level; the regular expressions used by the source are
hand-compiled to deterministic matchers (all the source's patterns
concatenate character classes that cannot overlap, so greedy matching agrees
with Python's backtracking search).  Python's `str.lower`, `\w`, `\s` and
`str.strip` are modelled on ASCII, which covers every comparison the claims
exercise.
-/

unseal Rat.add Rat.mul Rat.inv Rat.ofScientific Rat.sub

/-! ### Python string primitives (`utils.normalize_string` and friends) -/

/-- Python `\s` (ASCII model): the whitespace characters recognised by
`str.strip` and the `\s` character class. -/
def pyIsSpace (c : Char) : Bool :=
  c = ' ' || c = '\t' || c = '\n' || c = '\x0d' || c = '\x0b' || c = '\x0c'

/-- Python `\w` (ASCII model): word characters `[a-zA-Z0-9_]`. -/
def pyIsWord (c : Char) : Bool :=
  c.isAlphanum || c = '_'

/-- Python `\d` (ASCII model): decimal digits. -/
def pyIsDigit (c : Char) : Bool :=
  c.isDigit

/-- `re.sub(r'\s+', ' ', s)`: replace every maximal run of whitespace by a
single space.  The boolean flag records whether the previous character was
part of a whitespace run. -/
def collapseWs : Bool → List Char → List Char
  | _, [] => []
  | inRun, c :: rest =>
    if pyIsSpace c then
      if inRun then collapseWs true rest
      else ' ' :: collapseWs true rest
    else c :: collapseWs false rest

/-- Python `str.strip()`: drop leading and trailing whitespace. -/
def pyStrip (l : List Char) : List Char :=
  ((l.dropWhile pyIsSpace).reverse.dropWhile pyIsSpace).reverse

/-- `utils.normalize_string`: lowercase, delete characters that are neither
word characters nor whitespace (`re.sub(r'[^\w\s]', '', s)`), collapse
whitespace runs to one space, and strip.  Empty input returns `""` (the
Python `if not s` guard). -/
def normalize_string (s : String) : String :=
  if s = "" then "" else
  let cs := s.data.map Char.toLower
  let cs := cs.filter (fun c => pyIsWord c || pyIsSpace c)
  let cs := collapseWs false cs
  ⟨pyStrip cs⟩

/-- `utils.normalize_list`: normalize every truthy (non-empty) item, keeping
order.  Items that normalize to `""` are kept; raw-empty items are dropped. -/
def normalize_list (items : List String) : List String :=
  (items.filter (fun i => i ≠ "")).map normalize_string

/-! ### `difflib.SequenceMatcher` (ratio only, `isjunk = None`)

`utils.fuzzy_ratio` calls `SequenceMatcher(None, a, b).ratio()`.  With
`isjunk = None` the junk set is empty, so the junk-extension loops of
`find_longest_match` never fire and are omitted; the autojunk rule (popular
characters of `b` dropped from the index when `len(b) >= 200`) is kept. -/

/-- CPython's `b2j` index: the increasing list of positions of `c` in `b`,
emptied for popular characters when autojunk applies. -/
def b2j (b : List Char) (c : Char) : List Nat :=
  let idxs := (b.enum.filter (fun p => p.2 == c)).map (fun p => p.1)
  if b.length ≥ 200 ∧ idxs.length > b.length / 100 + 1 then [] else idxs

/-- Inner loop body of `find_longest_match`: for one position `j` of `a[i]`
in `b`, extend the run ending at `(i, j)` and remember the best run.
`j2len` is the previous row of the dynamic programme (default 0). -/
def flmInner (j2len : Nat → Nat) (i : Nat) :
    ((Nat → Nat) × Nat × Nat × Nat) → Nat → ((Nat → Nat) × Nat × Nat × Nat)
  | (newj2len, besti, bestj, bestsize), j =>
    let k := (if j = 0 then 0 else j2len (j - 1)) + 1
    let newj2len' := fun x => if x = j then k else newj2len x
    if k > bestsize then (newj2len', i + 1 - k, j + 1 - k, k)
    else (newj2len', besti, bestj, bestsize)

/-- Outer loop body of `find_longest_match`: process row `i` of `a`,
visiting the in-window positions of `a[i]` in `b` in increasing order
(Python's `continue` below `blo` / `break` at `bhi`). -/
def flmOuter (a : List Char) (bj : Char → List Nat) (blo bhi : Nat) :
    ((Nat → Nat) × Nat × Nat × Nat) → Nat → ((Nat → Nat) × Nat × Nat × Nat)
  | (j2len, besti, bestj, bestsize), i =>
    let js := (bj (a.getD i ' ')).filter (fun j => decide (blo ≤ j) && decide (j < bhi))
    js.foldl (flmInner j2len i) ((fun _ => 0), besti, bestj, bestsize)

/-- The `while besti > alo and bestj > blo ...` extension of the best block
to the left; the fuel bounds the iteration count (`besti` decreases). -/
def extLeft (a b : List Char) (alo blo : Nat) : Nat → Nat × Nat × Nat → Nat × Nat × Nat
  | 0, st => st
  | fuel + 1, (besti, bestj, bestsize) =>
    if alo < besti ∧ blo < bestj ∧ a.getD (besti - 1) ' ' = b.getD (bestj - 1) ' '
    then extLeft a b alo blo fuel (besti - 1, bestj - 1, bestsize + 1)
    else (besti, bestj, bestsize)

/-- The `while besti+bestsize < ahi ...` extension of the best block to the
right. -/
def extRight (a b : List Char) (ahi bhi besti bestj : Nat) : Nat → Nat → Nat
  | 0, size => size
  | fuel + 1, size =>
    if besti + size < ahi ∧ bestj + size < bhi ∧
        a.getD (besti + size) ' ' = b.getD (bestj + size) ' '
    then extRight a b ahi bhi besti bestj fuel (size + 1)
    else size

/-- `SequenceMatcher.find_longest_match` on the window
`a[alo:ahi] × b[blo:bhi]`: returns `(besti, bestj, bestsize)`. -/
def find_longest_match (a b : List Char) (bj : Char → List Nat)
    (alo ahi blo bhi : Nat) : Nat × Nat × Nat :=
  let st := (List.range' alo (ahi - alo)).foldl (flmOuter a bj blo bhi)
    ((fun _ => 0), alo, blo, 0)
  let l := extLeft a b alo blo st.2.1 (st.2.1, st.2.2.1, st.2.2.2)
  let size := extRight a b ahi bhi l.1 l.2.1 (ahi - (l.1 + l.2.2)) l.2.2
  (l.1, l.2.1, size)

/-- Total size of all matching blocks (the divide-and-conquer of
`get_matching_blocks`; only the sum matters for `ratio`). -/
def matchingTotal (a b : List Char) (bj : Char → List Nat) :
    Nat → Nat → Nat → Nat → Nat → Nat
  | 0, _, _, _, _ => 0
  | fuel + 1, alo, ahi, blo, bhi =>
    let m := find_longest_match a b bj alo ahi blo bhi
    if m.2.2 = 0 then 0
    else
      m.2.2 +
        (if alo < m.1 ∧ blo < m.2.1 then
          matchingTotal a b bj fuel alo m.1 blo m.2.1 else 0) +
        (if m.1 + m.2.2 < ahi ∧ m.2.1 + m.2.2 < bhi then
          matchingTotal a b bj fuel (m.1 + m.2.2) ahi (m.2.1 + m.2.2) bhi else 0)

/-- `SequenceMatcher.ratio()`: `2*M / (len(a)+len(b))`, and 1.0 when both
sequences are empty. -/
def smRatio (a b : List Char) : ℚ :=
  let total := matchingTotal a b (b2j b) (a.length + b.length + 1) 0 a.length 0 b.length
  if a.length + b.length = 0 then 1
  else (2 * (total : ℚ)) / ((a.length : ℚ) + (b.length : ℚ))

/-- `utils.fuzzy_ratio`: 0.0 for falsy (empty) inputs, else the
`SequenceMatcher` ratio of the two normalized strings. -/
def fuzzy_ratio (s1 s2 : String) : ℚ :=
  if s1 = "" ∨ s2 = "" then 0
  else smRatio (normalize_string s1).data (normalize_string s2).data

/-! ### Volume extraction (`utils.extract_volume_number`) and base-title key
(`audible.get_title_volume_key`)

Each regular expression of the source is hand-compiled to a matcher that
tests a match starting at a given position; `re.search`/`re.sub` semantics
are recovered by scanning positions left to right.  Every pattern is a
concatenation of literals, `\s`-runs and `\d`-runs whose character classes
are pairwise disjoint at the joins, so Python's backtracking is equivalent
to the greedy matching used here. -/

/-- Digit run to a natural number. -/
def digitsToNat (l : List Char) : Nat :=
  l.foldl (fun n c => 10 * n + (c.toNat - 48)) 0

/-- Parse `\d+(?:\.\d+)?` greedily at the head of `l`; returns the exact
rational value (the source converts the text to `Decimal`) and the rest. -/
def parseNum (l : List Char) : Option (ℚ × List Char) :=
  let ds := l.takeWhile pyIsDigit
  if ds = [] then none else
  let rest := l.drop ds.length
  match rest with
  | '.' :: r2 =>
    let fs := r2.takeWhile pyIsDigit
    if fs = [] then some ((digitsToNat ds : ℚ), rest)
    else some ((digitsToNat ds : ℚ) + mkRat (digitsToNat fs) (10 ^ fs.length),
      r2.drop fs.length)
  | _ => some ((digitsToNat ds : ℚ), rest)

/-- Match a literal character sequence at the head of `l`. -/
def matchLit (lit l : List Char) : Option (List Char) :=
  if l.take lit.length = lit then some (l.drop lit.length) else none

/-- `\.?`: consume one optional dot. -/
def optDot : List Char → List Char
  | '.' :: t => t
  | l => l

/-- `vol\.?\s*(\d+(?:\.\d+)?)` at the head of `l`. -/
def volNumAt (l : List Char) : Option ℚ :=
  (matchLit "vol".data l).bind fun r =>
    (parseNum ((optDot r).dropWhile pyIsSpace)).map (fun p => p.1)

/-- `volume\s*(\d+(?:\.\d+)?)` at the head of `l`. -/
def volumeNumAt (l : List Char) : Option ℚ :=
  (matchLit "volume".data l).bind fun r =>
    (parseNum (r.dropWhile pyIsSpace)).map (fun p => p.1)

/-- `book\s*(\d+(?:\.\d+)?)` at the head of `l`. -/
def bookNumAt (l : List Char) : Option ℚ :=
  (matchLit "book".data l).bind fun r =>
    (parseNum (r.dropWhile pyIsSpace)).map (fun p => p.1)

/-- `(\d+(?:\.\d+)?)\s*\(light novel\)` at the head of `l`. -/
def numLightNovelAt (l : List Char) : Option ℚ :=
  (parseNum l).bind fun p =>
    (matchLit "(light novel)".data (p.2.dropWhile pyIsSpace)).map (fun _ => p.1)

/-- `(\d+(?:\.\d+)?)\s*\(ln\)` at the head of `l`. -/
def numLnAt (l : List Char) : Option ℚ :=
  (parseNum l).bind fun p =>
    (matchLit "(ln)".data (p.2.dropWhile pyIsSpace)).map (fun _ => p.1)

/-- `,\s*vol\.?\s*(\d+(?:\.\d+)?)` at the head of `l`. -/
def commaVolNumAt : List Char → Option ℚ
  | ',' :: r => volNumAt (r.dropWhile pyIsSpace)
  | _ => none

/-- `:\s*volume\s*(\d+(?:\.\d+)?)` at the head of `l`. -/
def colonVolumeNumAt : List Char → Option ℚ
  | ':' :: r => volumeNumAt (r.dropWhile pyIsSpace)
  | _ => none

/-- `\s+(\d+(?:\.\d+)?)$` at the head of `l` (the suffix must be consumed
entirely). -/
def trailingNumAt (l : List Char) : Option ℚ :=
  let sp := l.takeWhile pyIsSpace
  if sp = [] then none else
  (parseNum (l.drop sp.length)).bind fun p => if p.2 = [] then some p.1 else none

/-- `re.search`: try the position matcher at every index, left to right. -/
def searchNum (m : List Char → Option ℚ) (l : List Char) : Option ℚ :=
  (List.range l.length).findSome? (fun i => m (l.drop i))

/-- `utils.extract_volume_number`: lowercase the title and try the eight
volume patterns in source order, returning the first captured number as an
exact rational (`Decimal` in the source), or `none`. -/
def extract_volume_number (title : String) : Option ℚ :=
  if title = "" then none else
  let l := title.data.map Char.toLower
  (searchNum volNumAt l) <|> (searchNum volumeNumAt l) <|>
  (searchNum bookNumAt l) <|> (searchNum numLightNovelAt l) <|>
  (searchNum numLnAt l) <|> (searchNum commaVolNumAt l) <|>
  (searchNum colonVolumeNumAt l) <|> (searchNum trailingNumAt l)

/-- `\s*vol\.?\s*\d+` at the head (tail `.*$` always matches). -/
def remVolAt (l : List Char) : Bool :=
  match matchLit "vol".data (l.dropWhile pyIsSpace) with
  | some r => ((optDot r).dropWhile pyIsSpace).takeWhile pyIsDigit ≠ []
  | none => false

/-- `\s*volume\s*\d+` at the head. -/
def remVolumeAt (l : List Char) : Bool :=
  match matchLit "volume".data (l.dropWhile pyIsSpace) with
  | some r => (r.dropWhile pyIsSpace).takeWhile pyIsDigit ≠ []
  | none => false

/-- `\s*book\s*\d+` at the head. -/
def remBookAt (l : List Char) : Bool :=
  match matchLit "book".data (l.dropWhile pyIsSpace) with
  | some r => (r.dropWhile pyIsSpace).takeWhile pyIsDigit ≠ []
  | none => false

/-- `\s*\d+\s*\(light novel\)` at the head. -/
def remNumLightNovelAt (l : List Char) : Bool :=
  let r := l.dropWhile pyIsSpace
  let ds := r.takeWhile pyIsDigit
  ds ≠ [] ∧ (matchLit "(light novel)".data
    ((r.drop ds.length).dropWhile pyIsSpace)).isSome

/-- `\s*\d+\s*\(ln\)` at the head. -/
def remNumLnAt (l : List Char) : Bool :=
  let r := l.dropWhile pyIsSpace
  let ds := r.takeWhile pyIsDigit
  ds ≠ [] ∧ (matchLit "(ln)".data ((r.drop ds.length).dropWhile pyIsSpace)).isSome

/-- `,\s*vol\.?\s*\d+` at the head. -/
def remCommaVolAt : List Char → Bool
  | ',' :: r => remVolAt r
  | _ => false

/-- `:\s*volume\s*\d+` at the head. -/
def remColonVolumeAt : List Char → Bool
  | ':' :: r => remVolumeAt r
  | _ => false

/-- `\s+\d+$` at the head (suffix consumed entirely). -/
def remTrailingNumAt (l : List Char) : Bool :=
  let sp := l.takeWhile pyIsSpace
  sp ≠ [] ∧ (let r := l.drop sp.length
             let ds := r.takeWhile pyIsDigit
             ds ≠ [] ∧ r.drop ds.length = [])

/-- `re.sub(pattern, '', s)` for the volume-removal patterns: every match
runs to the end of the string, so substitution keeps the prefix before the
leftmost match start. -/
def applyRemoval (m : List Char → Bool) (l : List Char) : List Char :=
  match (List.range l.length).find? (fun i => m (l.drop i)) with
  | some i => l.take i
  | none => l

/-- `audible.get_title_volume_key`: lowercase and strip the title, delete
the eight volume-indicator suffixes in source order, collapse and strip
whitespace, then delete the remaining non-word non-space characters. -/
def get_title_volume_key (title : String) : String :=
  if title = "" then "" else
  let cs := pyStrip (title.data.map Char.toLower)
  let cs := applyRemoval remVolAt cs
  let cs := applyRemoval remVolumeAt cs
  let cs := applyRemoval remBookAt cs
  let cs := applyRemoval remNumLightNovelAt cs
  let cs := applyRemoval remNumLnAt cs
  let cs := applyRemoval remCommaVolAt cs
  let cs := applyRemoval remColonVolumeAt cs
  let cs := applyRemoval remTrailingNumAt cs
  let cs := pyStrip (collapseWs false cs)
  ⟨cs.filter (fun c => pyIsWord c || pyIsSpace c)⟩

/-! ### Data model

`CatalogEntry` is the normalized product dictionary built by
`audible._process_product` (authors and narrators already comma-joined into
single strings), extended with the two fields that the match selectors
attach (`confidence_score`, `needs_review`, both absent = `none` on fresh
entries).  `WantedSpec` is the wanted-book dictionary; absent keys read via
`wanted.get(...)` become default values. -/

structure CatalogEntry where
  asin : String := ""
  title : String := ""
  author : String := ""
  narrator : String := ""
  publisher : String := ""
  series : String := ""
  series_number : String := ""
  release_date : String := ""
  confidence_score : Option ℚ := none
  needs_review : Option Bool := none
  deriving Repr, DecidableEq, Inhabited

structure WantedSpec where
  title : String := ""
  author : String := ""
  series : String := ""
  publisher : String := ""
  narrator : List String := []
  deriving Repr, DecidableEq, Inhabited

/-! ### Confidence scoring (`audible.confidence`, `audible.narrator_match`)

The source accumulates `score += ...` in five independent blocks (title,
series, author, publisher, narrator); `confidence` is their sum.  Floats are
modelled as exact rationals. -/

/-- Python substring test `sub in hay`. -/
def strContains (hay sub : String) : Bool :=
  (List.range (hay.data.length + 1)).any
    (fun i => decide ((hay.data.drop i).take sub.data.length = sub.data))

/-- Python `s.split(',')` on the character list (keeps empty pieces;
`"".split(',') == ['']`). -/
def splitOnComma : List Char → List (List Char)
  | [] => [[]]
  | c :: rest =>
    let r := splitOnComma rest
    if c = ',' then [] :: r
    else
      match r with
      | [] => [[c]]
      | h :: t => (c :: h) :: t

/-- The comma-split-and-strip idiom
`[a.strip() for a in s.split(',') if a.strip()]` used on author strings. -/
def splitAuthors (s : String) : List String :=
  ((splitOnComma s.data).map (fun a => (⟨pyStrip a⟩ : String))).filter
    (fun a => a ≠ "")

/-- `audible.narrator_match`: any normalized result narrator equal to, or
`≥ 0.9` fuzzy-similar to, any normalized wanted narrator. -/
def narrator_match (narrators_result narrators_wanted : List String) : Bool :=
  if narrators_result = [] ∨ narrators_wanted = [] then false else
  let norm_result := normalize_list narrators_result
  let norm_wanted := normalize_list narrators_wanted
  if norm_result = [] ∨ norm_wanted = [] then false else
  norm_result.any (fun nr => norm_wanted.any (fun nw =>
    decide (nr = nw) || decide (fuzzy_ratio nr nw ≥ 0.9)))

/-- Python truthiness of an optional `Decimal` (`None` and `0` are falsy). -/
def truthyVol : Option ℚ → Bool
  | some v => decide (v ≠ 0)
  | none => false

/-- The volume-recency block inside `confidence`'s same-base-title branch:
`+0.05` when both volumes are truthy and the result's is strictly newer,
`+0.05*0.5` when only the result has a truthy volume. -/
def volumeRecencyBonus (rv wv : Option ℚ) : ℚ :=
  if truthyVol rv && truthyVol wv then
    (if rv.getD 0 > wv.getD 0 then 0.05 else 0)
  else if truthyVol rv then 0.05 * 0.5
  else 0

/-- Title block of `confidence` (core weight 0.5), including the
series-aware base-title comparison and the volume-recency bonus. -/
def titlePart (result : CatalogEntry) (wanted : WantedSpec) : ℚ :=
  let result_volume := extract_volume_number result.title
  let wanted_volume := extract_volume_number wanted.title
  let norm_title_result := normalize_string result.title
  let norm_title_wanted := normalize_string wanted.title
  if result.series ≠ "" ∧ wanted.series ≠ "" ∧
      normalize_string result.series = normalize_string wanted.series then
    if get_title_volume_key result.title = get_title_volume_key wanted.title then
      0.5 + volumeRecencyBonus result_volume wanted_volume
    else
      let title_ratio := fuzzy_ratio result.title wanted.title
      if title_ratio ≥ 0.85 then 0.5 * 0.9
      else if title_ratio ≥ 0.70 then 0.5 * 0.6
      else 0
  else
    let title_ratio := fuzzy_ratio result.title wanted.title
    if norm_title_result ≠ "" ∧ norm_title_wanted ≠ "" then
      if norm_title_result = norm_title_wanted then 0.5
      else if title_ratio ≥ 0.85 then 0.5 * 0.9
      else if title_ratio ≥ 0.70 then 0.5 * 0.6
      else 0
    else 0

/-- Series block of `confidence` (core weight 0.2). -/
def seriesPart (result : CatalogEntry) (wanted : WantedSpec) : ℚ :=
  let norm_series_result := normalize_string result.series
  let norm_series_wanted := normalize_string wanted.series
  let series_ratio := fuzzy_ratio result.series wanted.series
  if norm_series_result ≠ "" ∧ norm_series_wanted ≠ "" then
    if norm_series_result = norm_series_wanted then 0.2
    else if series_ratio ≥ 0.85 then 0.2 * 0.9
    else if series_ratio ≥ 0.70 then 0.2 * 0.6
    else 0
  else 0

/-- Author block of `confidence` (core weight 0.3); the fuzzy tiers use the
best ratio over the comma-split result authors. -/
def authorPart (result : CatalogEntry) (wanted : WantedSpec) : ℚ :=
  let norm_author_result := normalize_string result.author
  let norm_author_wanted := normalize_string wanted.author
  let best_author_ratio := (splitAuthors result.author).foldl
    (fun m a => max m (fuzzy_ratio a wanted.author)) 0
  if norm_author_result ≠ "" ∧ norm_author_wanted ≠ "" then
    if norm_author_result = norm_author_wanted then 0.3
    else if best_author_ratio ≥ 0.90 then 0.3 * 0.9
    else if best_author_ratio ≥ 0.75 then 0.3 * 0.6
    else 0
  else 0

/-- Publisher bonus block of `confidence` (+0.1 on exact, substring, or
`≥ 0.8` fuzzy publisher match). -/
def publisherPart (result : CatalogEntry) (wanted : WantedSpec) : ℚ :=
  let norm_publisher_result := normalize_string result.publisher
  let norm_publisher_wanted := normalize_string wanted.publisher
  if norm_publisher_result ≠ "" ∧ norm_publisher_wanted ≠ "" then
    if strContains norm_publisher_result norm_publisher_wanted ||
        strContains norm_publisher_wanted norm_publisher_result ||
        decide (fuzzy_ratio result.publisher wanted.publisher ≥ 0.8)
    then 0.1 else 0
  else 0

/-- Narrator bonus block of `confidence` (+0.1).  The entry's narrator is a
single comma-joined string, which the source wraps whole into a
one-element list. -/
def narratorPart (result : CatalogEntry) (wanted : WantedSpec) : ℚ :=
  let narrators_result := [result.narrator]
  let narrators_wanted := wanted.narrator
  if narrators_wanted ≠ [] ∧ narrators_result ≠ [] then
    if narrator_match narrators_result narrators_wanted then 0.1 else 0
  else 0

/-- `audible.confidence`: weighted match score of a catalog entry against a
wanted spec (core weights 0.5/0.3/0.2, additive bonuses). -/
def confidence (result : CatalogEntry) (wanted : WantedSpec) : ℚ :=
  titlePart result wanted + seriesPart result wanted + authorPart result wanted +
    publisherPart result wanted + narratorPart result wanted

/-! ### Match selection (`audible.find_best_match_with_review`,
`audible.find_all_good_matches`)

Python dictionaries are mutable and the result list holds references, so
both selectors are modelled as state transformers returning
`(value, post-call input list)`.  `find_best_match_with_review` assigns the
derived fields on the selected entry itself (no copy in the source), which
the model renders as `List.set` at the selected index;
`find_all_good_matches` copies (`result.copy()`) before assigning, leaving
the input list untouched. -/

/-- The two dict assignments `result['confidence_score'] = ...`,
`result['needs_review'] = ...`. -/
def attachFields (e : CatalogEntry) (score : ℚ) (review : Bool) : CatalogEntry :=
  { e with confidence_score := some score, needs_review := some review }

/-- Stable descending insertion by score (strictly greater moves ahead, so
equal scores keep arrival order). -/
def insertDesc {α : Type} (x : ℚ × α) : List (ℚ × α) → List (ℚ × α)
  | [] => [x]
  | y :: ys => if x.1 > y.1 then x :: y :: ys else y :: insertDesc x ys

/-- Python's stable `scored.sort(key=lambda x: x[0], reverse=True)`. -/
def sortDesc {α : Type} (l : List (ℚ × α)) : List (ℚ × α) :=
  l.foldl (fun acc x => insertDesc x acc) []

/-- `audible.find_best_match_with_review`, with the scored pairs holding the
index of the referenced entry: returns the selected (mutated) entry and the
post-call state of the input list. -/
def find_best_match_with_review (results : List CatalogEntry) (wanted : WantedSpec)
    (min_confidence preferred_confidence : ℚ) :
    Option CatalogEntry × List CatalogEntry :=
  if results = [] then (none, results) else
  let scored := results.enum.map (fun p => (confidence p.2 wanted, p.1))
  match sortDesc scored with
  | [] => (none, results)
  | (best_score, best_idx) :: _ =>
    if best_score ≥ preferred_confidence then
      let u := attachFields (results.getD best_idx default) best_score false
      (some u, results.set best_idx u)
    else if best_score ≥ min_confidence then
      let u := attachFields (results.getD best_idx default) best_score true
      (some u, results.set best_idx u)
    else (none, results)

/-- `audible.find_all_good_matches`: scores every entry, keeps copies of
those meeting `min_confidence` with the fields attached, sorted by
descending score; the input list is returned unchanged. -/
def find_all_good_matches (results : List CatalogEntry) (wanted : WantedSpec)
    (min_confidence preferred_confidence : ℚ) :
    List CatalogEntry × List CatalogEntry :=
  if results = [] then ([], results) else
  let scored := results.filterMap (fun r =>
    let score := confidence r wanted
    if score ≥ min_confidence then
      some (score, attachFields r score (decide (score < preferred_confidence)))
    else none)
  ((sortDesc scored).map (fun p => p.2), results)

/-! ### Volume-aware deduplication (spec §4.7) -/

/-- Lexicographic order on character lists: Python's `<` on strings
(code-point comparison), used to compare ISO release dates. -/
def charListLt : List Char → List Char → Bool
  | [], [] => false
  | [], _ :: _ => true
  | _ :: _, [] => false
  | c :: cs, d :: ds => if c = d then charListLt cs ds else decide (c < d)

/-- Python string comparison `a < b` (release dates are ISO `YYYY-MM-DD`
strings, so this is date order). -/
def strLt (a b : String) : Bool :=
  charListLt a.data b.data

/-- Modelled from the spec: grouping key of the Deduplicator,
`(normalize(series), titleVolumeKey(title))` (spec §4.7). -/
def volumeGroupKey (e : CatalogEntry) : String × String :=
  (normalize_string e.series, get_title_volume_key e.title)

/-- Modelled from the spec: "entries with no series or volume information
pass through ungrouped" (spec §4.7). -/
def dedupePassesThrough (e : CatalogEntry) : Bool :=
  e.series = "" || (extract_volume_number e.title).isNone

/-- Modelled from the spec: the entry at index `i` survives deduplication
unless some other entry in its group shares its exact extracted volume and
has a more recent `releaseDate` (ties keep the first encountered)
(spec §4.7). -/
def dedupeKeeps (entries : List CatalogEntry) (i : Nat) : Bool :=
  let e := entries.getD i default
  if dedupePassesThrough e then true
  else (List.range entries.length).all (fun j =>
    let f := entries.getD j default
    decide (j = i) ||
    !(decide (volumeGroupKey f = volumeGroupKey e) &&
      decide (extract_volume_number f.title = extract_volume_number e.title) &&
      (strLt e.release_date f.release_date ||
        (decide (f.release_date = e.release_date) && decide (j < i)))))

/-- Modelled from the spec: `check_for_volume_duplicates` is imported from
the audible module by `main.py` and exercised by the repository's test
scripts, but its definition is absent from the sources under `src/`; this
is the Deduplicator of spec §4.7.  Exact-duplicate editions (same group,
same extracted volume) collapse to the most recent release; everything else
is retained in input order. -/
def check_for_volume_duplicates (entries : List CatalogEntry) : List CatalogEntry :=
  (List.range entries.length).filterMap (fun i =>
    if dedupeKeeps entries i then some (entries.getD i default) else none)

/-! ### Rate limiter (`audible.audible_rate_limited`,
`audible.set_audible_rate_limit`)

Wall-clock time is modelled explicitly: a guarded call is a function of the
stamp `_last_api_call`, the arrival time `now` and the call's duration, and
returns the time the call begins together with the new stamp (taken after
the call completes, while the module lock is still held). -/

/-- `audible.set_audible_rate_limit`: `_api_min_interval = 60.0 /
max(1, calls_per_minute)`. -/
def set_audible_rate_limit (calls_per_minute : Nat) : ℚ :=
  60 / ((max 1 calls_per_minute : Nat) : ℚ)

/-- `audible.audible_rate_limited`: compute `wait = _last_api_call +
_api_min_interval - now`; sleep it out if positive; run the call; stamp the
completion time.  Returns `(call begin time, new _last_api_call)`. -/
def audible_rate_limited (last_api_call now duration min_interval : ℚ) : ℚ × ℚ :=
  let wait := last_api_call + min_interval - now
  let call_begin := if wait > 0 then now + wait else now
  (call_begin, call_begin + duration)

/-! ### Result cache (`audible._get_cached_results`) -/

/-- `audible._get_cached_results` over an abstract cache-directory store
mapping a key to `(file mtime, parsed contents)`; inner `none` contents
model an unreadable/corrupt JSON file.  A missing file, an entry whose age
exceeds `_cache_ttl`, and a corrupt entry all read as `none` (miss). -/
def _get_cached_results (store : String → Option (ℚ × Option (List CatalogEntry)))
    (cache_ttl now : ℚ) (cache_key : String) : Option (List CatalogEntry) :=
  match store cache_key with
  | none => none
  | some (mtime, contents) =>
    if now - mtime > cache_ttl then none
    else match contents with
      | some d => some d
      | none => none

/-! ### Paged search (`audible.search_audible`)

The cache and the network are oracles per page of this query; the returned
action log records, in order, which pages were served from cache and which
were freshly fetched (every fresh fetch is written back to the cache
immediately, so the fetched actions are exactly the cache writes). -/

inductive PageAction where
  | cacheHit (page : Nat) (results : List CatalogEntry)
  | fetched (page : Nat) (results : List CatalogEntry)
  deriving Repr, DecidableEq

/-- The page an action touched. -/
def PageAction.page : PageAction → Nat
  | .cacheHit p _ => p
  | .fetched p _ => p

/-- The cache writes `_cache_results(key(page), results)` performed during a
search: one per freshly fetched page. -/
def writesOf (log : List PageAction) : List (Nat × List CatalogEntry) :=
  log.filterMap (fun a => match a with
    | .fetched p r => some (p, r)
    | .cacheHit _ _ => none)

/-- The `for page in range(1, max_pages)` loop of `audible.search_audible`:
`rem` iterations remain, `page` is the current page, `acc` the accumulated
results.  The loop stops before touching `page` when `len(all_results) <
page * results_per_page`, and stops after a fresh fetch that returned fewer
than `results_per_page` results. -/
def searchLoop (cache : Nat → Option (List CatalogEntry))
    (fetch : Nat → List CatalogEntry) (results_per_page : Nat) :
    Nat → Nat → List CatalogEntry → List PageAction × List CatalogEntry
  | 0, _, acc => ([], acc)
  | rem + 1, page, acc =>
    if acc.length < page * results_per_page then ([], acc)
    else match cache page with
      | some r =>
        let rest := searchLoop cache fetch results_per_page rem (page + 1) (acc ++ r)
        (.cacheHit page r :: rest.1, rest.2)
      | none =>
        if (fetch page).length < results_per_page then
          ([.fetched page (fetch page)], acc ++ fetch page)
        else
          let rest := searchLoop cache fetch results_per_page rem (page + 1)
            (acc ++ fetch page)
          (.fetched page (fetch page) :: rest.1, rest.2)

/-- `audible.search_audible`: page 0 is served from the cache when present,
else fetched and cached; pages `1 .. max_pages-1` follow the early-stopping
loop.  Fetch failures are not modelled (the fetch oracle is total). -/
def search_audible (cache : Nat → Option (List CatalogEntry))
    (fetch : Nat → List CatalogEntry) (max_pages results_per_page : Nat) :
    List PageAction × List CatalogEntry :=
  let first : PageAction × List CatalogEntry :=
    match cache 0 with
    | some r => (.cacheHit 0 r, r)
    | none => (.fetched 0 (fetch 0), fetch 0)
  let rest := searchLoop cache fetch results_per_page (max_pages - 1) 1 first.2
  (first.1 :: rest.1, rest.2)

/-! ### Helper lemmas -/

theorem normalize_string_nil : normalize_string "" = "" := rfl

theorem volumeRecencyBonus_nonneg (rv wv : Option ℚ) :
    0 ≤ volumeRecencyBonus rv wv := by
  unfold volumeRecencyBonus
  repeat' split
  all_goals norm_num

theorem volumeRecencyBonus_le (rv wv : Option ℚ) :
    volumeRecencyBonus rv wv ≤ 0.05 := by
  unfold volumeRecencyBonus
  repeat' split
  all_goals norm_num

theorem titlePart_nonneg (r : CatalogEntry) (w : WantedSpec) :
    0 ≤ titlePart r w := by
  have hb := volumeRecencyBonus_nonneg (extract_volume_number r.title)
    (extract_volume_number w.title)
  simp only [titlePart]
  repeat' split
  all_goals norm_num
  linarith

theorem titlePart_le (r : CatalogEntry) (w : WantedSpec) :
    titlePart r w ≤ 0.55 := by
  have hb := volumeRecencyBonus_le (extract_volume_number r.title)
    (extract_volume_number w.title)
  simp only [titlePart]
  repeat' split
  all_goals norm_num
  linarith

theorem seriesPart_nonneg (r : CatalogEntry) (w : WantedSpec) :
    0 ≤ seriesPart r w := by
  simp only [seriesPart]
  repeat' split
  all_goals norm_num

theorem seriesPart_le (r : CatalogEntry) (w : WantedSpec) :
    seriesPart r w ≤ 0.2 := by
  simp only [seriesPart]
  repeat' split
  all_goals norm_num

theorem authorPart_nonneg (r : CatalogEntry) (w : WantedSpec) :
    0 ≤ authorPart r w := by
  simp only [authorPart]
  repeat' split
  all_goals norm_num

theorem authorPart_le (r : CatalogEntry) (w : WantedSpec) :
    authorPart r w ≤ 0.3 := by
  simp only [authorPart]
  repeat' split
  all_goals norm_num

theorem publisherPart_nonneg (r : CatalogEntry) (w : WantedSpec) :
    0 ≤ publisherPart r w := by
  simp only [publisherPart]
  repeat' split
  all_goals norm_num

theorem publisherPart_le (r : CatalogEntry) (w : WantedSpec) :
    publisherPart r w ≤ 0.1 := by
  simp only [publisherPart]
  repeat' split
  all_goals norm_num

theorem narratorPart_nonneg (r : CatalogEntry) (w : WantedSpec) :
    0 ≤ narratorPart r w := by
  simp only [narratorPart]
  repeat' split
  all_goals norm_num

theorem narratorPart_le (r : CatalogEntry) (w : WantedSpec) :
    narratorPart r w ≤ 0.1 := by
  simp only [narratorPart]
  repeat' split
  all_goals norm_num

/-- A string whose normalization is non-empty is itself non-empty. -/
theorem ne_empty_of_normalize_ne_empty {s : String}
    (h : normalize_string s ≠ "") : s ≠ "" := by
  intro he
  exact h (he ▸ normalize_string_nil)

/-- C10: for every entry and wanted spec, `confidence` is bounded below by 0
and above by 1.25 (core weights 0.5+0.3+0.2 plus the publisher, narrator and
volume-recency bonuses); every branch only adds a non-negative amount. -/
theorem confidence_bounded (r : CatalogEntry) (w : WantedSpec) :
    0 ≤ confidence r w ∧ confidence r w ≤ 1.25 := by
  have h1 := titlePart_nonneg r w
  have h2 := titlePart_le r w
  have h3 := seriesPart_nonneg r w
  have h4 := seriesPart_le r w
  have h5 := authorPart_nonneg r w
  have h6 := authorPart_le r w
  have h7 := publisherPart_nonneg r w
  have h8 := publisherPart_le r w
  have h9 := narratorPart_nonneg r w
  have h10 := narratorPart_le r w
  unfold confidence
  constructor <;> [linarith; (norm_num; linarith)]

/-- C1 (counterexample): an entry and wanted spec whose title, author and
series are all non-empty and pairwise equal after normalization, yet whose
confidence is 0.95 < 1.0 — normalization-equal titles can have different
title-volume keys (`"a !"` keys to `"a "` but `"a"` keys to `"a"`), which
sends the same-series title comparison into the fuzzy tier (credit 0.9). -/
theorem confidence_core_equal_lt_one_cex :
    (let e : CatalogEntry := { title := "a !", author := "x", series := "s" }
     let w : WantedSpec := { title := "a", author := "x", series := "s" }
     normalize_string e.title = normalize_string w.title ∧
     normalize_string e.title ≠ "" ∧
     normalize_string e.author = normalize_string w.author ∧
     normalize_string e.author ≠ "" ∧
     normalize_string e.series = normalize_string w.series ∧
     normalize_string e.series ≠ "" ∧
     confidence e w < 1) := by
  decide

/-- C1 (amended): with the additional hypothesis that the two titles also
share their title-volume key (in particular whenever the raw titles are
identical), non-empty normalization-equal title, author and series give
`confidence ≥ 1.0`. -/
theorem confidence_core_equal_ge_one (e : CatalogEntry) (w : WantedSpec)
    (_ht : normalize_string e.title = normalize_string w.title)
    (ha : normalize_string e.author = normalize_string w.author)
    (hae : normalize_string e.author ≠ "")
    (hs : normalize_string e.series = normalize_string w.series)
    (hse : normalize_string e.series ≠ "")
    (hk : get_title_volume_key e.title = get_title_volume_key w.title) :
    1 ≤ confidence e w := by
  have hrs : e.series ≠ "" := ne_empty_of_normalize_ne_empty hse
  have hws : w.series ≠ "" := ne_empty_of_normalize_ne_empty (hs ▸ hse)
  have htp : titlePart e w = 0.5 + volumeRecencyBonus
      (extract_volume_number e.title) (extract_volume_number w.title) := by
    simp only [titlePart]
    rw [if_pos ⟨hrs, hws, hs⟩, if_pos hk]
  have hsp : seriesPart e w = 0.2 := by
    simp only [seriesPart]
    rw [if_pos ⟨hse, hs ▸ hse⟩, if_pos hs]
  have hap : authorPart e w = 0.3 := by
    simp only [authorPart]
    rw [if_pos ⟨hae, ha ▸ hae⟩, if_pos ha]
  have hb := volumeRecencyBonus_nonneg (extract_volume_number e.title)
    (extract_volume_number w.title)
  have h7 := publisherPart_nonneg e w
  have h9 := narratorPart_nonneg e w
  unfold confidence
  rw [htp, hsp, hap]
  norm_num
  linarith

/-- C1 (witness): the amended theorem applied to the all-equal concrete
instance. -/
theorem confidence_core_equal_ge_one_witness :
    (1 : ℚ) ≤ confidence { title := "t", author := "x", series := "s" }
      { title := "t", author := "x", series := "s" } :=
  confidence_core_equal_ge_one
    { title := "t", author := "x", series := "s" }
    { title := "t", author := "x", series := "s" }
    (by decide) (by decide) (by decide) (by decide) (by decide) (by decide)

/-- A result-narrator list holding only the empty string never matches:
`normalize_list` drops falsy items, leaving nothing to compare. -/
theorem narrator_match_empty_head (l : List String) :
    narrator_match [""] l = false := by
  simp only [narrator_match]
  split
  · rfl
  · have h0 : normalize_list [""] = [] := rfl
    rw [h0]
    simp

/-- C5 (counterexample): a wanted spec with an empty title can still earn
full title weight plus a volume-recency bonus — in the same-series branch
both title-volume keys degenerate to `""` (the entry's title is pure volume
marker), so the base-title comparison succeeds and the entry's volume adds
the has-volume half-bonus: the title block contributes 0.525, not 0. -/
theorem empty_wanted_title_earns_weight_cex :
    (let e : CatalogEntry := { title := "vol. 3", series := "s" }
     let w : WantedSpec := { title := "", series := "s" }
     w.title = "" ∧ titlePart e w = 0.525 ∧ confidence e w = 0.725) := by
  decide

/-- C5 (amended): an empty series, author, publisher or narrator field on
either side contributes exactly zero for that field, and an empty title on
either side contributes zero title weight and no volume bonus except in the
same-series branch when both title-volume keys coincide (then degenerate),
where full title weight and possibly a volume bonus are still awarded. -/
theorem empty_fields_contribute_zero (e : CatalogEntry) (w : WantedSpec) :
    ((e.series = "" ∨ w.series = "") → seriesPart e w = 0) ∧
    ((e.author = "" ∨ w.author = "") → authorPart e w = 0) ∧
    ((e.publisher = "" ∨ w.publisher = "") → publisherPart e w = 0) ∧
    ((e.narrator = "" ∨ w.narrator = []) → narratorPart e w = 0) ∧
    ((e.title = "" ∨ w.title = "") →
      ¬(e.series ≠ "" ∧ w.series ≠ "" ∧
          normalize_string e.series = normalize_string w.series ∧
          get_title_volume_key e.title = get_title_volume_key w.title) →
      titlePart e w = 0) := by
  refine ⟨?_, ?_, ?_, ?_, ?_⟩
  · intro h
    simp only [seriesPart]
    rw [if_neg]
    intro hc
    rcases h with h | h
    · exact hc.1 (by rw [h]; rfl)
    · exact hc.2 (by rw [h]; rfl)
  · intro h
    simp only [authorPart]
    rw [if_neg]
    intro hc
    rcases h with h | h
    · exact hc.1 (by rw [h]; rfl)
    · exact hc.2 (by rw [h]; rfl)
  · intro h
    simp only [publisherPart]
    rw [if_neg]
    intro hc
    rcases h with h | h
    · exact hc.1 (by rw [h]; rfl)
    · exact hc.2 (by rw [h]; rfl)
  · intro h
    simp only [narratorPart]
    rcases h with h | h
    · split
      · rw [h, narrator_match_empty_head]
        simp
      · rfl
    · rw [if_neg]
      intro hc
      exact hc.1 h
  · intro ht hnk
    simp only [titlePart]
    by_cases hb : (e.series ≠ "" ∧ w.series ≠ "" ∧
        normalize_string e.series = normalize_string w.series)
    · rw [if_pos hb]
      have hkne : get_title_volume_key e.title ≠ get_title_volume_key w.title :=
        fun hk => hnk ⟨hb.1, hb.2.1, hb.2.2, hk⟩
      rw [if_neg hkne]
      have hfz : fuzzy_ratio e.title w.title = 0 := by
        unfold fuzzy_ratio
        rw [if_pos ht]
      rw [hfz]
      norm_num
    · rw [if_neg hb]
      rw [if_neg]
      intro hc
      rcases ht with h | h
      · exact hc.1 (by rw [h]; rfl)
      · exact hc.2 (by rw [h]; rfl)

/-- C5 (witness): the amended theorem applied to concrete instances — an
empty series contributes zero, and an empty wanted title outside the
degenerate same-series case contributes zero title weight. -/
theorem empty_fields_contribute_zero_witness :
    seriesPart { title := "x" } { title := "x" } = 0 ∧
    titlePart { title := "t", series := "s" } { title := "", series := "q" } = 0 := by
  constructor
  · exact (empty_fields_contribute_zero { title := "x" } { title := "x" }).1
      (Or.inl rfl)
  · exact (empty_fields_contribute_zero { title := "t", series := "s" }
      { title := "", series := "q" }).2.2.2.2 (Or.inr rfl) (by decide)

/-- C3 (counterexample): the entry lists two narrators (comma-joined, as
`_process_product` builds them) one of which equals the wanted narrator
exactly, yet no bonus is added: `confidence` wraps the whole joined string
as a single list item, and `"ab cd"` is neither equal nor 0.9-similar to
`"ab"`. -/
theorem narrator_bonus_not_split_cex :
    (let e : CatalogEntry := { title := "t", narrator := "ab, cd" }
     let w : WantedSpec := { title := "t", narrator := ["ab"] }
     "ab" ∈ (splitOnComma e.narrator.data).map (fun a => (⟨pyStrip a⟩ : String)) ∧
     normalize_string "ab" ∈ normalize_list w.narrator ∧
     narratorPart e w = 0 ∧ confidence e w = 0.5) := by
  decide

/-- C3 (amended): the narrator bonus keys on the entry's entire comma-joined
narrator string as one item: when `wanted.narrator` is non-empty and the
normalized joined string is equal to, or at least 0.9 fuzzy-similar to, some
member of the normalized wanted list, `confidence` adds the +0.1 bonus; with
several listed narrators of which only one matches, the joined string
generally matches nothing and no bonus is added. -/
theorem narrator_bonus_joined_string (e : CatalogEntry) (w : WantedSpec)
    (hw : w.narrator ≠ []) (hr : e.narrator ≠ "")
    (hm : ∃ nw ∈ normalize_list w.narrator,
      normalize_string e.narrator = nw ∨
        fuzzy_ratio (normalize_string e.narrator) nw ≥ 0.9) :
    narratorPart e w = 0.1 := by
  obtain ⟨nw, hmem, hcase⟩ := hm
  have hnr : normalize_list [e.narrator] = [normalize_string e.narrator] := by
    simp [normalize_list, hr]
  have hmatch : narrator_match [e.narrator] w.narrator = true := by
    simp only [narrator_match]
    rw [if_neg (by simp [hw]), hnr, if_neg]
    · apply List.any_eq_true.mpr
      refine ⟨normalize_string e.narrator, List.mem_singleton.mpr rfl, ?_⟩
      apply List.any_eq_true.mpr
      refine ⟨nw, hmem, ?_⟩
      rcases hcase with h | h <;> simp [h]
    · intro hc
      rcases hc with hc | hc
      · exact List.cons_ne_nil _ _ hc
      · rw [hc] at hmem
        exact List.not_mem_nil _ hmem
  simp only [narratorPart]
  rw [if_pos ⟨hw, List.cons_ne_nil _ _⟩, if_pos hmatch]

/-- C3 (witness): the amended theorem applied to a single-narrator entry
matching the wanted narrator exactly. -/
theorem narrator_bonus_joined_string_witness :
    narratorPart { narrator := "n" } { narrator := ["n"] } = 0.1 :=
  narrator_bonus_joined_string { narrator := "n" } { narrator := ["n"] }
    (by decide) (by decide) ⟨normalize_string "n", by decide, Or.inl rfl⟩

/-- A string with an empty character list is the empty string. -/
theorem string_eq_empty_of_data {s : String} (h : s.data = []) : s = "" := by
  cases s with
  | mk d =>
    cases h
    rfl

/-- A fold whose step fixes the initial state leaves it unchanged. -/
theorem foldl_fixed {α β : Type} (f : α → β → α) (init : α) (l : List β)
    (h : ∀ x, f init x = init) : l.foldl f init = init := by
  induction l with
  | nil => rfl
  | cons x xs ih =>
    rw [List.foldl_cons, h x]
    exact ih

theorem extLeft_base (a b : List Char) (alo blo fuel bj bs : Nat) :
    extLeft a b alo blo fuel (alo, bj, bs) = (alo, bj, bs) := by
  cases fuel with
  | zero => rfl
  | succ n =>
    unfold extLeft
    rw [if_neg]
    intro h
    exact absurd h.1 (lt_irrefl alo)

theorem extRight_stop (a b : List Char) (ahi bhi besti bestj fuel size : Nat)
    (h : ¬ besti + size < ahi ∨ ¬ bestj + size < bhi) :
    extRight a b ahi bhi besti bestj fuel size = size := by
  cases fuel with
  | zero => rfl
  | succ n =>
    unfold extRight
    rw [if_neg]
    intro hc
    rcases h with h | h
    · exact h hc.1
    · exact h hc.2.1

/-- `find_longest_match` on an empty `a`-window finds nothing. -/
theorem flm_empty_region (a b : List Char) (bj : Char → List Nat)
    (alo blo bhi : Nat) :
    find_longest_match a b bj alo alo blo bhi = (alo, blo, 0) := by
  unfold find_longest_match
  rw [Nat.sub_self]
  simp only [List.range'_zero, List.foldl_nil]
  rw [extLeft_base]
  dsimp only
  rw [extRight_stop a b alo bhi alo blo _ 0 (Or.inl (by simp))]

/-- `matchingTotal` of an empty `a`-window is zero, for any fuel. -/
theorem matchingTotal_region_empty (a b : List Char) (bj : Char → List Nat)
    (fuel alo blo bhi : Nat) :
    matchingTotal a b bj fuel alo alo blo bhi = 0 := by
  cases fuel with
  | zero => rfl
  | succ n =>
    unfold matchingTotal
    rw [flm_empty_region]
    simp

theorem b2j_nil (c : Char) : b2j [] c = [] := rfl

theorem flmOuter_nil_b (a : List Char) (blo bhi x y z i : Nat) :
    flmOuter a (b2j []) blo bhi ((fun _ => 0), x, y, z) i = ((fun _ => 0), x, y, z) :=
  rfl

/-- `find_longest_match` against an empty `b` finds nothing. -/
theorem flm_nil_b (a : List Char) (ahi : Nat) :
    find_longest_match a [] (b2j []) 0 ahi 0 0 = (0, 0, 0) := by
  unfold find_longest_match
  rw [foldl_fixed _ _ _ (fun i => flmOuter_nil_b a 0 0 0 0 0 i)]
  dsimp only
  rw [extLeft_base]
  dsimp only
  rw [extRight_stop a [] ahi 0 0 0 _ 0 (Or.inr (by simp))]

/-- `matchingTotal` against an empty `b` is zero, for any fuel. -/
theorem matchingTotal_nil_b (a : List Char) (fuel ahi : Nat) :
    matchingTotal a [] (b2j []) fuel 0 ahi 0 0 = 0 := by
  cases fuel with
  | zero => rfl
  | succ n =>
    unfold matchingTotal
    rw [flm_nil_b]
    simp

theorem smRatio_nil_left (b : List Char) (hb : b ≠ []) : smRatio [] b = 0 := by
  unfold smRatio
  simp only [List.length_nil]
  rw [matchingTotal_region_empty]
  rw [if_neg]
  · simp
  · simpa using hb

theorem smRatio_nil_right (a : List Char) (ha : a ≠ []) : smRatio a [] = 0 := by
  unfold smRatio
  simp only [List.length_nil, Nat.add_zero]
  rw [matchingTotal_nil_b]
  rw [if_neg]
  · simp
  · simpa using ha

theorem smRatio_nil_nil : smRatio [] [] = 1 := by
  decide

/-- C9 (counterexample): both inputs normalize to the empty string (pure
punctuation), yet `fuzzy_ratio` returns 1.0: `SequenceMatcher` defines the
ratio of two empty sequences to be 1.0, and the falsy-input guard only
checks the raw strings. -/
theorem fuzzy_ratio_both_normalize_empty_cex :
    normalize_string "!" = "" ∧ normalize_string "?" = "" ∧
    fuzzy_ratio "!" "?" = 1 := by
  decide

/-- C9 (amended): `fuzzy_ratio` returns 0.0 when either raw input is empty
and when exactly one of the two inputs normalizes to empty; when both inputs
are non-empty but both normalize to empty it returns 1.0 (the
`SequenceMatcher` ratio of two empty sequences). -/
theorem fuzzy_ratio_empty_cases (s1 s2 : String) :
    ((s1 = "" ∨ s2 = "") → fuzzy_ratio s1 s2 = 0) ∧
    (normalize_string s1 = "" → normalize_string s2 ≠ "" → fuzzy_ratio s1 s2 = 0) ∧
    (normalize_string s1 ≠ "" → normalize_string s2 = "" → fuzzy_ratio s1 s2 = 0) ∧
    (s1 ≠ "" → s2 ≠ "" → normalize_string s1 = "" → normalize_string s2 = "" →
      fuzzy_ratio s1 s2 = 1) := by
  refine ⟨?_, ?_, ?_, ?_⟩
  · intro h
    unfold fuzzy_ratio
    rw [if_pos h]
  · intro h1 h2
    unfold fuzzy_ratio
    split
    · rfl
    · rw [h1]
      apply smRatio_nil_left
      intro hd
      exact h2 (string_eq_empty_of_data hd)
  · intro h1 h2
    unfold fuzzy_ratio
    split
    · rfl
    · rw [h2]
      apply smRatio_nil_right
      intro hd
      exact h1 (string_eq_empty_of_data hd)
  · intro hr1 hr2 h1 h2
    unfold fuzzy_ratio
    rw [if_neg]
    · rw [h1, h2]
      exact smRatio_nil_nil
    · intro h
      rcases h with h | h
      · exact hr1 h
      · exact hr2 h

/-- C9 (witness): the amended theorem applied to an empty input, to a
one-sided punctuation input, and to two punctuation inputs. -/
theorem fuzzy_ratio_empty_cases_witness :
    fuzzy_ratio "" "x" = 0 ∧ fuzzy_ratio "! a" "??" = 0 ∧
    fuzzy_ratio "!" "?" = 1 := by
  refine ⟨(fuzzy_ratio_empty_cases "" "x").1 (Or.inl rfl), ?_, ?_⟩
  · exact (fuzzy_ratio_empty_cases "! a" "??").2.2.1 (by decide) (by decide)
  · exact (fuzzy_ratio_empty_cases "!" "?").2.2.2 (by decide) (by decide)
      (by decide) (by decide)

/-- C2 (counterexample): `find_best_match_with_review` mutates its input:
on a single matching entry the post-call input list differs from the
original — the selected dict itself receives `confidence_score` and
`needs_review` (the source attaches them without copying). -/
theorem find_best_match_mutates_input_cex :
    (let e : CatalogEntry := { title := "t" }
     let w : WantedSpec := { title := "t" }
     (find_best_match_with_review [e] w 0.5 0.7).2 ≠ [e] ∧
     (find_all_good_matches [e] w 0.5 0.7).2 = [e]) := by
  decide

/-- `find_best_match_with_review` either returns nothing and leaves the
input untouched, or returns an input entry with the fields assigned in
place, updating the input list at the selected index. -/
theorem find_best_spec (results : List CatalogEntry) (wanted : WantedSpec)
    (minc prefc : ℚ) :
    find_best_match_with_review results wanted minc prefc = (none, results) ∨
    (∃ i s b, find_best_match_with_review results wanted minc prefc =
      (some (attachFields (results.getD i default) s b),
        results.set i (attachFields (results.getD i default) s b))) := by
  unfold find_best_match_with_review
  split
  · left
    rfl
  · dsimp only
    split
    · left
      rfl
    · rename_i bs bi tail heq
      split
      · right
        exact ⟨bi, bs, false, rfl⟩
      · split
        · right
          exact ⟨bi, bs, true, rfl⟩
        · left
          rfl

/-- C2 (amended): `find_all_good_matches` never mutates its input (it
attaches the fields to copies); `find_best_match_with_review` leaves the
input unchanged when it returns nothing, but when it returns a match the
returned object is an input entry itself with the two fields assigned in
place — the input list is updated at the selected index. -/
theorem match_selectors_frame (results : List CatalogEntry) (wanted : WantedSpec)
    (minc prefc : ℚ) :
    (find_all_good_matches results wanted minc prefc).2 = results ∧
    ((find_best_match_with_review results wanted minc prefc).1 = none →
      (find_best_match_with_review results wanted minc prefc).2 = results) ∧
    (∀ r, (find_best_match_with_review results wanted minc prefc).1 = some r →
      ∃ i s b, r = attachFields (results.getD i default) s b ∧
        (find_best_match_with_review results wanted minc prefc).2 =
          results.set i r) := by
  refine ⟨?_, ?_, ?_⟩
  · unfold find_all_good_matches
    split <;> rfl
  · intro hnone
    rcases find_best_spec results wanted minc prefc with h | ⟨i, s, b, h⟩
    · rw [h]
    · rw [h] at hnone
      exact absurd hnone (by simp)
  · intro r hr
    rcases find_best_spec results wanted minc prefc with h | ⟨i, s, b, h⟩
    · rw [h] at hr
      exact absurd hr (by simp)
    · rw [h] at hr
      simp only [Option.some.injEq] at hr
      refine ⟨i, s, b, hr.symm, ?_⟩
      rw [h, hr]

/-- C2 (witness): the amended theorem applied to a concrete one-entry list
whose single entry scores 0.5 and is selected with `needs_review = true`. -/
theorem match_selectors_frame_witness :
    (find_all_good_matches [{ title := "t" }] { title := "t" } 0.5 0.7).2 =
      [{ title := "t" }] ∧
    (∃ i s b, attachFields ({ title := "t" } : CatalogEntry) 0.5 true =
        attachFields ([({ title := "t" } : CatalogEntry)].getD i default) s b ∧
      (find_best_match_with_review [{ title := "t" }] { title := "t" } 0.5 0.7).2 =
        [({ title := "t" } : CatalogEntry)].set i
          (attachFields { title := "t" } 0.5 true)) :=
  ⟨(match_selectors_frame [{ title := "t" }] { title := "t" } 0.5 0.7).1,
   (match_selectors_frame [{ title := "t" }] { title := "t" } 0.5 0.7).2.2
     (attachFields { title := "t" } 0.5 true) (by decide)⟩

/-- C4 (counterexample): two same-series entries with different extracted
volumes do not always both survive deduplication: when one of them has an
exact same-volume duplicate with a later release date, it is removed in
favour of that duplicate — `"t vol. 1"` (A) and `"t vol. 2"` (B) differ in
volume, yet A is dropped because of its own newer duplicate (C). -/
theorem dedupe_removes_distinct_volume_entry_cex :
    (let a1 : CatalogEntry :=
      { asin := "A", title := "t vol. 1", series := "s", release_date := "2024-01-01" }
     let b1 : CatalogEntry :=
      { asin := "B", title := "t vol. 2", series := "s", release_date := "2024-01-01" }
     let a2 : CatalogEntry :=
      { asin := "C", title := "t vol. 1", series := "s", release_date := "2024-01-02" }
     normalize_string a1.series = normalize_string b1.series ∧
     extract_volume_number a1.title = some 1 ∧
     extract_volume_number b1.title = some 2 ∧
     check_for_volume_duplicates [a1, b1, a2] = [b1, a2] ∧
     a1 ∉ check_for_volume_duplicates [a1, b1, a2]) := by
  decide


/-- C4 (amended): deduplication removes an entry only in favour of an exact
same-volume duplicate: every kept index appears in the output, and an entry
is dropped only when some other entry shares its group key (normalized
series and title-volume key) and its exact extracted volume with a more
recent release date (ties keeping the first encountered).  In particular two
same-series entries with different extracted volumes are never removed
because of each other, and both appear in the output whenever neither has
such an exact duplicate. -/
theorem dedupe_drops_only_exact_volume_duplicates (entries : List CatalogEntry) :
    (∀ i, i < entries.length → dedupeKeeps entries i = true →
      entries.getD i default ∈ check_for_volume_duplicates entries) ∧
    (∀ i, dedupeKeeps entries i = false →
      ∃ j, j < entries.length ∧ j ≠ i ∧
        volumeGroupKey (entries.getD j default) =
          volumeGroupKey (entries.getD i default) ∧
        extract_volume_number (entries.getD j default).title =
          extract_volume_number (entries.getD i default).title ∧
        (strLt (entries.getD i default).release_date
            (entries.getD j default).release_date = true ∨
          ((entries.getD j default).release_date =
              (entries.getD i default).release_date ∧ j < i))) := by
  constructor
  · intro i hi hkeep
    unfold check_for_volume_duplicates
    apply List.mem_filterMap.mpr
    refine ⟨i, List.mem_range.mpr hi, ?_⟩
    rw [hkeep]
    simp
  · intro i hdrop
    unfold dedupeKeeps at hdrop
    dsimp only at hdrop
    split at hdrop
    · exact absurd hdrop (by simp)
    · have hne : ¬ (List.range entries.length).all (fun j =>
          let f := entries.getD j default
          decide (j = i) ||
          !(decide (volumeGroupKey f = volumeGroupKey (entries.getD i default)) &&
            decide (extract_volume_number f.title =
              extract_volume_number (entries.getD i default).title) &&
            (strLt (entries.getD i default).release_date f.release_date ||
              (decide (f.release_date = (entries.getD i default).release_date) &&
                decide (j < i))))) = true := by
        rw [hdrop]
        simp
      rw [List.all_eq_true] at hne
      push_neg at hne
      obtain ⟨j, hjmem, hj⟩ := hne
      simp at hj
      obtain ⟨h1, ⟨h2, h3⟩, h4⟩ := hj
      refine ⟨j, List.mem_range.mp hjmem, h1, by simpa using h2, by simpa using h3, ?_⟩
      cases hb : strLt (entries.getD i default).release_date
          (entries.getD j default).release_date with
      | true => exact Or.inl rfl
      | false =>
        right
        have h5 := h4 (by simpa using hb)
        simpa using h5

/-- C4 (witness): the amended theorem applied to the three-entry list of the
counterexample — the kept index 1 (the distinct-volume entry with no exact
duplicate) appears in the output. -/
theorem dedupe_drops_only_exact_volume_duplicates_witness :
    ([{ asin := "A", title := "t vol. 1", series := "s", release_date := "2024-01-01" },
      { asin := "B", title := "t vol. 2", series := "s", release_date := "2024-01-01" },
      { asin := "C", title := "t vol. 1", series := "s", release_date := "2024-01-02" }] :
        List CatalogEntry).getD 1 default ∈
      check_for_volume_duplicates
        [{ asin := "A", title := "t vol. 1", series := "s", release_date := "2024-01-01" },
         { asin := "B", title := "t vol. 2", series := "s", release_date := "2024-01-01" },
         { asin := "C", title := "t vol. 1", series := "s", release_date := "2024-01-02" }] :=
  (dedupe_drops_only_exact_volume_duplicates _).1 1 (by decide) (by decide)

/-- A guarded call begins at `max(now, lastCall + minInterval)`. -/
theorem audible_rate_limited_begin (last now dur itv : ℚ) :
    (audible_rate_limited last now dur itv).1 = max now (last + itv) := by
  unfold audible_rate_limited
  dsimp only
  split <;> rename_i h
  · have he : now + (last + itv - now) = last + itv := by ring
    rw [he, max_eq_right (by linarith)]
  · push_neg at h
    rw [max_eq_left (by linarith)]

/-- The new `_last_api_call` stamp is the begin time plus the call's
duration. -/
theorem audible_rate_limited_stamp (last now dur itv : ℚ) :
    (audible_rate_limited last now dur itv).2 =
      (audible_rate_limited last now dur itv).1 + dur := rfl

/-- C6: two successive calls guarded by the same rate limiter begin at least
`minInterval = 60 / max(1, callsPerMinute)` seconds apart (the interval is
positive), and an early arrival is delayed — the second call still begins,
at exactly `max(now₂, lastCall + minInterval)` — never dropped. -/
theorem rate_limiter_spacing (calls_per_minute : Nat)
    (last now₁ dur₁ now₂ dur₂ : ℚ) (hdur : 0 ≤ dur₁) :
    0 < set_audible_rate_limit calls_per_minute ∧
    (let itv := set_audible_rate_limit calls_per_minute
     let c₁ := audible_rate_limited last now₁ dur₁ itv
     let c₂ := audible_rate_limited c₁.2 now₂ dur₂ itv
     c₁.1 + itv ≤ c₂.1 ∧ c₂.1 = max now₂ (c₁.2 + itv)) := by
  have hpos : 0 < set_audible_rate_limit calls_per_minute := by
    unfold set_audible_rate_limit
    apply div_pos (by norm_num)
    have h1 : (1 : Nat) ≤ max 1 calls_per_minute := le_max_left 1 calls_per_minute
    exact_mod_cast Nat.lt_of_lt_of_le Nat.zero_lt_one h1
  set I := set_audible_rate_limit calls_per_minute with hI
  refine ⟨hpos, ?_, ?_⟩
  · have hb2 := audible_rate_limited_begin
      (audible_rate_limited last now₁ dur₁ I).2 now₂ dur₂ I
    have hs1 := audible_rate_limited_stamp last now₁ dur₁ I
    rw [hb2, hs1]
    refine le_trans ?_ (le_max_right now₂ _)
    linarith
  · exact audible_rate_limited_begin _ _ _ _

/-- C6 (witness): the spacing theorem at 10 calls per minute (interval 6s):
a first call at t=0 taking 1s and a second arriving at t=2 begins at 7 ≥ 6,
and is delayed to `max 2 (7 + 6) = 13`, not dropped. -/
theorem rate_limiter_spacing_witness :
    0 < set_audible_rate_limit 10 ∧
    (let itv := set_audible_rate_limit 10
     let c₁ := audible_rate_limited 0 0 1 itv
     let c₂ := audible_rate_limited c₁.2 2 0 itv
     c₁.1 + itv ≤ c₂.1 ∧ c₂.1 = max 2 (c₁.2 + itv)) :=
  rate_limiter_spacing 10 0 0 1 2 0 (by norm_num)

/-- C7: a cache read of a stored entry older than the TTL returns `none`
(a miss), and a read of a well-formed entry no older than the TTL returns
the stored page; a missing key is a miss. -/
theorem cache_ttl_read (store : String → Option (ℚ × Option (List CatalogEntry)))
    (cache_ttl now : ℚ) (cache_key : String) :
    (∀ mtime contents, store cache_key = some (mtime, contents) →
      now - mtime > cache_ttl →
      _get_cached_results store cache_ttl now cache_key = none) ∧
    (∀ mtime d, store cache_key = some (mtime, some d) →
      now - mtime ≤ cache_ttl →
      _get_cached_results store cache_ttl now cache_key = some d) ∧
    (store cache_key = none →
      _get_cached_results store cache_ttl now cache_key = none) := by
  refine ⟨?_, ?_, ?_⟩
  · intro mtime contents hstore hold
    unfold _get_cached_results
    rw [hstore]
    dsimp only
    rw [if_pos hold]
  · intro mtime d hstore hfresh
    unfold _get_cached_results
    rw [hstore]
    dsimp only
    rw [if_neg (not_lt.mpr hfresh)]
  · intro hstore
    unfold _get_cached_results
    rw [hstore]

/-- C7 (witness): the TTL theorem on a one-key store with mtime 0 and TTL
10: read at time 11 misses, read at time 10 returns the stored page. -/
theorem cache_ttl_read_witness :
    _get_cached_results (fun _ => some (0, some [])) 10 11 "k" = none ∧
    _get_cached_results (fun _ => some (0, some [])) 10 10 "k" = some [] :=
  ⟨(cache_ttl_read (fun _ => some (0, some [])) 10 11 "k").1 0 (some [])
      rfl (by norm_num),
   (cache_ttl_read (fun _ => some (0, some [])) 10 10 "k").2.1 0 []
      rfl (by norm_num)⟩

/-- The last element of a cons with non-empty tail is the tail's last. -/
theorem getLast?_cons_of_ne_nil {α : Type} (x : α) {l : List α} (h : l ≠ []) :
    (x :: l).getLast? = l.getLast? := by
  cases l with
  | nil => exact absurd rfl h
  | cons y t => rfl

/-- The page loop stops before touching `page` when the cumulative result
count is below `page * results_per_page`. -/
theorem searchLoop_stop (cache : Nat → Option (List CatalogEntry))
    (fetch : Nat → List CatalogEntry) (per : Nat) (rem page : Nat)
    (acc : List CatalogEntry) (h : acc.length < page * per) :
    searchLoop cache fetch per rem page acc = ([], acc) := by
  cases rem with
  | zero => rfl
  | succ n =>
    unfold searchLoop
    rw [if_pos h]

/-- A freshly fetched short page is always the last action of the page
loop: nothing is retrieved after it. -/
theorem searchLoop_short_fetch_last (cache : Nat → Option (List CatalogEntry))
    (fetch : Nat → List CatalogEntry) (per : Nat) :
    ∀ rem page acc p r,
      PageAction.fetched p r ∈ (searchLoop cache fetch per rem page acc).1 →
      r.length < per →
      (searchLoop cache fetch per rem page acc).1.getLast? =
        some (.fetched p r) := by
  intro rem
  induction rem with
  | zero =>
    intro page acc p r hmem _
    simp [searchLoop] at hmem
  | succ n ih =>
    intro page acc p r hmem hshort
    by_cases hc : acc.length < page * per
    · rw [searchLoop_stop cache fetch per _ page acc hc] at hmem
      simp at hmem
    · cases hcache : cache page with
      | some q =>
        have heq : searchLoop cache fetch per (n + 1) page acc =
            (PageAction.cacheHit page q ::
              (searchLoop cache fetch per n (page + 1) (acc ++ q)).1,
             (searchLoop cache fetch per n (page + 1) (acc ++ q)).2) := by
          rw [searchLoop]
          rw [if_neg hc, hcache]
        rw [heq] at hmem ⊢
        rcases List.mem_cons.mp hmem with he | hm
        · exact absurd he (by simp)
        · rw [getLast?_cons_of_ne_nil _ (List.ne_nil_of_mem hm)]
          exact ih (page + 1) (acc ++ q) p r hm hshort
      | none =>
        by_cases hlen : (fetch page).length < per
        · have heq : searchLoop cache fetch per (n + 1) page acc =
              ([PageAction.fetched page (fetch page)], acc ++ fetch page) := by
            rw [searchLoop]
            rw [if_neg hc, hcache, if_pos hlen]
          rw [heq] at hmem ⊢
          simp at hmem
          rw [hmem.1, hmem.2]
          rfl
        · have heq : searchLoop cache fetch per (n + 1) page acc =
              (PageAction.fetched page (fetch page) ::
                (searchLoop cache fetch per n (page + 1) (acc ++ fetch page)).1,
               (searchLoop cache fetch per n (page + 1) (acc ++ fetch page)).2) := by
            rw [searchLoop]
            rw [if_neg hc, hcache, if_neg hlen]
          rw [heq] at hmem ⊢
          rcases List.mem_cons.mp hmem with he | hm
          · cases he
            exact absurd hshort hlen
          · rw [getLast?_cons_of_ne_nil _ (List.ne_nil_of_mem hm)]
            exact ih (page + 1) (acc ++ fetch page) p r hm hshort

/-- C8: `search_audible` consults the cache for page 0 before fetching and
caches what it fetches (the fetched log entries are the cache writes); a
later page is not retrieved when the cumulative result count entering it is
below `page * results_per_page`; and once a freshly fetched page returns
fewer than `results_per_page` results it is the last page touched. -/
theorem search_audible_paging (cache : Nat → Option (List CatalogEntry))
    (fetch : Nat → List CatalogEntry) (max_pages results_per_page : Nat) :
    (∀ r, cache 0 = some r →
      (search_audible cache fetch max_pages results_per_page).1.head? =
        some (.cacheHit 0 r)) ∧
    (cache 0 = none →
      (search_audible cache fetch max_pages results_per_page).1.head? =
        some (.fetched 0 (fetch 0)) ∧
      (0, fetch 0) ∈
        writesOf (search_audible cache fetch max_pages results_per_page).1) ∧
    (∀ rem page acc, acc.length < page * results_per_page →
      searchLoop cache fetch results_per_page rem page acc = ([], acc)) ∧
    (∀ p r, PageAction.fetched p r ∈
        (search_audible cache fetch max_pages results_per_page).1 →
      r.length < results_per_page →
      (search_audible cache fetch max_pages results_per_page).1.getLast? =
        some (.fetched p r)) := by
  refine ⟨?_, ?_, ?_, ?_⟩
  · intro r hr
    unfold search_audible
    rw [hr]
    rfl
  · intro hr
    unfold search_audible
    rw [hr]
    dsimp only
    constructor
    · rfl
    · simp [writesOf]
  · intro rem page acc h
    exact searchLoop_stop cache fetch results_per_page rem page acc h
  · intro p r hmem hshort
    cases hcache : cache 0 with
    | some q =>
      have heq : search_audible cache fetch max_pages results_per_page =
          (PageAction.cacheHit 0 q ::
            (searchLoop cache fetch results_per_page (max_pages - 1) 1 q).1,
           (searchLoop cache fetch results_per_page (max_pages - 1) 1 q).2) := by
        unfold search_audible
        rw [hcache]
      rw [heq] at hmem ⊢
      rcases List.mem_cons.mp hmem with he | hm
      · exact absurd he (by simp)
      · rw [getLast?_cons_of_ne_nil _ (List.ne_nil_of_mem hm)]
        exact searchLoop_short_fetch_last cache fetch results_per_page _ _ _ p r hm hshort
    | none =>
      have heq : search_audible cache fetch max_pages results_per_page =
          (PageAction.fetched 0 (fetch 0) ::
            (searchLoop cache fetch results_per_page (max_pages - 1) 1 (fetch 0)).1,
           (searchLoop cache fetch results_per_page (max_pages - 1) 1 (fetch 0)).2) := by
        unfold search_audible
        rw [hcache]
      rw [heq] at hmem ⊢
      rcases List.mem_cons.mp hmem with he | hm
      · cases he
        have hstop : searchLoop cache fetch results_per_page (max_pages - 1) 1
            (fetch 0) = ([], fetch 0) := by
          apply searchLoop_stop
          rw [one_mul]
          exact hshort
        rw [hstop]
        rfl
      · rw [getLast?_cons_of_ne_nil _ (List.ne_nil_of_mem hm)]
        exact searchLoop_short_fetch_last cache fetch results_per_page _ _ _ p r hm hshort

/-- C8 (witness): the paging theorem on the empty-cache, empty-fetch oracle
with 4 pages of 3 results: page 0 is fetched and written to the cache, and
the loop never reaches page 1. -/
theorem search_audible_paging_witness :
    (search_audible (fun _ => none) (fun _ => []) 4 3).1.head? =
      some (PageAction.fetched 0 []) ∧
    (0, ([] : List CatalogEntry)) ∈
      writesOf (search_audible (fun _ => none) (fun _ => []) 4 3).1 ∧
    searchLoop (fun _ => none) (fun _ => []) 3 3 1 [] = ([], []) :=
  ⟨((search_audible_paging (fun _ => none) (fun _ => []) 4 3).2.1 rfl).1,
   ((search_audible_paging (fun _ => none) (fun _ => []) 4 3).2.1 rfl).2,
   (search_audible_paging (fun _ => none) (fun _ => []) 4 3).2.2.1 3 1 [] (by decide)⟩
